import Mathlib

/-!
Verification of the conversion-pipeline and archive-packaging core of the
avif-converter repository (`src/scripts/converter.ts` and its AVIF encoder
worker), shallowly embedded in Lean 4.

Machine integers are modelled as `Nat` with explicit `% 2 ^ 32` where the
JavaScript source normalizes through `>>> 0` / `ToUint32`; byte sequences are
`List Nat` (each element a byte value of a `Uint8Array`); the quality fraction
(a JavaScript number holding a value of the form v / 100) is modelled as an
exact rational.
-/

/-! ## Byte / checksum utilities (converter.ts lines 156-194) -/

/-- One inner-loop round of `crc32`:
`mask = -(crc & 1); crc = (crc >>> 1) ^ (0xedb88320 & mask)`.
`0xedb88320 & mask` is `0xedb88320` when the low bit is set, `0` otherwise. -/
def crc32Round (c : Nat) : Nat :=
  (c >>> 1) ^^^ (if c &&& 1 = 1 then 0xedb88320 else 0)

/-- The 8-fold iteration of the inner `for (let j = 0; j < 8; j++)` loop. -/
def crc32Rounds : Nat → Nat → Nat
  | 0, c => c
  | j + 1, c => crc32Rounds j (crc32Round c)

/-- One iteration of the outer loop of `crc32`: xor in the next byte
(`crc ^= bytes[i]`, a 32-bit operation), then run eight rounds. -/
def crc32Update (c b : Nat) : Nat :=
  crc32Rounds 8 ((c ^^^ b) % 2 ^ 32)

/-- `crc32(bytes)` from converter.ts: initial value `0xffffffff`, per-byte
update, final xor with `0xffffffff` and normalization `>>> 0`. -/
def crc32 (bytes : List Nat) : Nat :=
  ((bytes.foldl crc32Update 0xffffffff) ^^^ 0xffffffff) % 2 ^ 32

/-- `u16(n)`: little-endian packing of a 16-bit value, as in converter.ts
(`[n & 0xff, (n >>> 8) & 0xff]`, both operations acting on `ToUint32(n)`). -/
def u16 (n : Nat) : List Nat :=
  [(n % 2 ^ 32) &&& 0xff, ((n % 2 ^ 32) >>> 8) &&& 0xff]

/-- `u32(n)`: little-endian packing of a 32-bit value, as in converter.ts. -/
def u32 (n : Nat) : List Nat :=
  [(n % 2 ^ 32) &&& 0xff, ((n % 2 ^ 32) >>> 8) &&& 0xff,
   ((n % 2 ^ 32) >>> 16) &&& 0xff, ((n % 2 ^ 32) >>> 24) &&& 0xff]

/-- `concat(chunks)`: order-preserving byte-sequence concatenation. -/
def concat (chunks : List (List Nat)) : List Nat :=
  chunks.flatten

/-! ## Archive builder (`buildZip`, converter.ts lines 196-270) -/

/-- An archive entry: the UTF-8 bytes of its name (the result of
`encoder.encode(entry.name)`) and its data bytes (the result of reading the
entry blob into a `Uint8Array`). -/
structure ZipEntry where
  name : List Nat
  data : List Nat
deriving DecidableEq

instance : Inhabited ZipEntry := ⟨⟨[], []⟩⟩

/-- The local file header built inside the `buildZip` loop. -/
def localHeaderBytes (e : ZipEntry) : List Nat :=
  concat [u32 0x04034b50, u16 20, u16 (1 <<< 11), u16 0, u16 0, u16 0,
          u32 (crc32 e.data), u32 e.data.length, u32 e.data.length,
          u16 e.name.length, u16 0, e.name]

/-- The central directory header built inside the `buildZip` loop. -/
def centralHeaderBytes (e : ZipEntry) (offset : Nat) : List Nat :=
  concat [u32 0x02014b50, u16 20, u16 20, u16 (1 <<< 11), u16 0, u16 0, u16 0,
          u32 (crc32 e.data), u32 e.data.length, u32 e.data.length,
          u16 e.name.length, u16 0, u16 0, u16 0, u16 0, u32 0, u32 offset,
          e.name]

/-- The `for (const entry of entries)` loop of `buildZip`, threading the
running `offset`; returns (`localParts`, `centralParts`, final `offset`). -/
def buildZipGo : List ZipEntry → Nat → List (List Nat) × List (List Nat) × Nat
  | [], offset => ([], [], offset)
  | e :: rest, offset =>
    let lh := localHeaderBytes e
    let ch := centralHeaderBytes e offset
    let r := buildZipGo rest (offset + lh.length + e.data.length)
    (lh :: e.data :: r.1, ch :: r.2.1, r.2.2)

/-- `buildZip(entries)` from converter.ts: local sections, then the
concatenated central directory, then the end-of-central-directory record. -/
def buildZip (entries : List ZipEntry) : List Nat :=
  let r := buildZipGo entries 0
  let centralDir := concat r.2.1
  let endRecord := concat [u32 0x06054b50, u16 0, u16 0,
                           u16 entries.length, u16 entries.length,
                           u32 centralDir.length, u32 r.2.2, u16 0]
  concat r.1 ++ centralDir ++ endRecord

/-! Specification-side ZIP layout, written from the spec's words: per entry a
local file header immediately followed by the raw bytes; then one
central-directory record per entry whose offset field is the byte offset of
that entry's local header from archive start; then an end-of-central-directory
record whose counts, size and offset fields describe the central directory. -/

/-- Spec: local file header (signature, version 20, flag with only bit 11 set,
method 0, zero time and date, CRC-32, compressed = uncompressed = data length,
filename length, zero extra length, UTF-8 name bytes). -/
def localHeaderSpec (e : ZipEntry) : List Nat :=
  u32 0x04034b50 ++ u16 20 ++ u16 (2 ^ 11) ++ u16 0 ++ u16 0 ++ u16 0 ++
    u32 (crc32 e.data) ++ u32 e.data.length ++ u32 e.data.length ++
    u16 e.name.length ++ u16 0 ++ e.name

/-- Spec: an entry's local section — its local header immediately followed by
the raw entry bytes. -/
def localChunkSpec (e : ZipEntry) : List Nat :=
  localHeaderSpec e ++ e.data

/-- Spec: central-directory record with the same CRC, sizes and name as the
local header, and the given local-header offset. -/
def centralRecordSpec (e : ZipEntry) (offset : Nat) : List Nat :=
  u32 0x02014b50 ++ u16 20 ++ u16 20 ++ u16 (2 ^ 11) ++ u16 0 ++ u16 0 ++
    u16 0 ++ u32 (crc32 e.data) ++ u32 e.data.length ++ u32 e.data.length ++
    u16 e.name.length ++ u16 0 ++ u16 0 ++ u16 0 ++ u16 0 ++ u32 0 ++
    u32 offset ++ e.name

/-- Spec: the byte offset, from archive start, of the i-th entry's local file
header: the total length of the preceding local sections. -/
def zipLocalOffset (entries : List ZipEntry) (i : Nat) : Nat :=
  (((entries.take i).map localChunkSpec).flatten).length

/-- Spec: the central directory — one record per entry, in input order, each
carrying its entry's local-header offset. -/
def zipCentralDirSpec (entries : List ZipEntry) : List Nat :=
  ((List.range entries.length).map
    (fun i => centralRecordSpec entries[i]! (zipLocalOffset entries i))).flatten

/-- Spec: the end-of-central-directory record — signature, zero disk fields,
both entry counts equal to the number of entries, central-directory byte
length and its byte offset from archive start, zero comment length. -/
def zipEndRecordSpec (entries : List ZipEntry) : List Nat :=
  u32 0x06054b50 ++ u16 0 ++ u16 0 ++ u16 entries.length ++
    u16 entries.length ++ u32 (zipCentralDirSpec entries).length ++
    u32 ((entries.map localChunkSpec).flatten).length ++ u16 0

/-- Spec: the whole archive layout. -/
def zipLayoutSpec (entries : List ZipEntry) : List Nat :=
  (entries.map localChunkSpec).flatten ++ zipCentralDirSpec entries ++
    zipEndRecordSpec entries

/-! ## Encode channel (converter.ts lines 67-108 and the worker) -/

/-- A message arriving on the channel from the worker, as read by the
`message` listener of `getAvifWorker`: its `type` tag, request id, `ok` flag,
and the `bytes` / `error` payloads of the two variants of
`AvifEncodeResponse`. -/
structure AvifMsg where
  tag : String
  id : Nat
  ok : Bool
  bytes : List Nat
  error : String
deriving DecidableEq

/-- What resolving / rejecting a pending completion does, as an observable
event: the request id, the registered completion token, and the payload. -/
inductive AvifEvent where
  | resolved (id : Nat) (token : Nat) (bytes : List Nat)
  | rejected (id : Nat) (token : Nat) (error : String)
deriving DecidableEq

/-- The request id an event resolves or rejects. -/
def AvifEvent.reqId : AvifEvent → Nat
  | .resolved i _ _ => i
  | .rejected i _ _ => i

/-- `avifPending.delete(id)`: remove the entry with the given key from the
pending map (a JavaScript `Map`, whose keys are unique; modelled as an
association list keyed by request id, values being completion tokens). -/
def erasePending (k : Nat) : List (Nat × Nat) → List (Nat × Nat)
  | [] => []
  | p :: rest => if p.1 = k then rest else p :: erasePending k rest

/-- The `message` listener installed by `getAvifWorker`: ignore messages whose
tag is not `encode-avif-result`; look the id up in the pending map; if absent
do nothing; otherwise delete the entry first, then resolve (ok) or reject
(error) the completion. Returns the new pending map and the emitted event. -/
def handleAvifMessage (pending : List (Nat × Nat)) (msg : AvifMsg) :
    List (Nat × Nat) × Option AvifEvent :=
  if msg.tag ≠ "encode-avif-result" then (pending, none)
  else
    match pending.lookup msg.id with
    | none => (pending, none)
    | some tok =>
      (erasePending msg.id pending,
       some (if msg.ok then .resolved msg.id tok msg.bytes
             else .rejected msg.id tok msg.error))

/-- Deliver a sequence of worker messages to the listener, collecting the
resolution events in order. -/
def processAvifMessages (pending : List (Nat × Nat)) :
    List AvifMsg → List (Nat × Nat) × List AvifEvent
  | [] => (pending, [])
  | msg :: rest =>
    let r := handleAvifMessage pending msg
    let r2 := processAvifMessages r.1 rest
    (r2.1, (r.2.toList) ++ r2.2)

/-! ## Quality handling (converter.ts lines 89-108, 466, and worker line 693).
The slider value is an integer string; `Number(qualitySlider.value) / 100`
and `Math.round(msg.quality * 100)` are modelled over exact rationals. -/

/-- `quality01 = Number(qualitySlider.value) / 100`. -/
def qualityFractionFromSlider (v : Nat) : ℚ :=
  (v : ℚ) / 100

/-- The `quality` field of the `AvifEncodeRequest` posted by
`encodeAvifInWorker`: the `quality01` argument, unchanged (`quality:
quality01`). -/
def avifRequestQuality (quality01 : ℚ) : ℚ :=
  quality01

/-- The quality the worker hands to the AVIF codec:
`Math.round(msg.quality * 100)` applied to the received message's quality. -/
def workerCodecQuality (msgQuality : ℚ) : ℤ :=
  round (msgQuality * 100)

/-! ## Filename derivation (`stripExt` / `withExt`, converter.ts lines 45-52) -/

/-- `filename.lastIndexOf('.')` on the character list of the filename: the
largest index holding `c`, or `-1` when there is none. -/
def lastIndexOf (c : Char) : List Char → Int
  | [] => -1
  | x :: xs =>
    if lastIndexOf c xs ≥ 0 then lastIndexOf c xs + 1
    else if x = c then 0 else -1

/-- `stripExt(filename)`: drop from the last dot on, but only when the last
dot sits at an index greater than 0. -/
def stripExt (cs : List Char) : List Char :=
  if lastIndexOf '.' cs > 0 then cs.take (lastIndexOf '.' cs).toNat else cs

/-- `withExt(filename, ext)`: the stripped name, a dot, and the extension. -/
def withExt (cs ext : List Char) : List Char :=
  stripExt cs ++ '.' :: ext

/-- Spec: the position of the filename's last dot — the largest index whose
character is a dot, if any. -/
def lastDotSpec (cs : List Char) : Option Nat :=
  ((List.range cs.length).filter (fun i => cs.getD i ' ' == '.')).getLast?

/-- Spec: derive the output filename by replacing the input's extension with
the target extension; a name whose only dot is its leading character, or with
no dot at all, keeps its whole name and gets the extension appended. -/
def withExtSpec (cs ext : List Char) : List Char :=
  match lastDotSpec cs with
  | some i => (if 0 < i then cs.take i else cs) ++ '.' :: ext
  | none => cs ++ '.' :: ext

/-! ## Item state machine (converter.ts `main`, lines 272-656) -/

/-- The fields of a `File` the state machine reads: name, declared MIME type,
size. -/
structure FileInfo where
  name : String
  type : String
  size : Nat
deriving DecidableEq

instance : Inhabited FileInfo := ⟨⟨"", "", 0⟩⟩

/-- The fields of a `Blob` produced by a conversion: its MIME type and size. -/
structure BlobInfo where
  type : String
  size : Nat
deriving DecidableEq

inductive ItemStatus where
  | ready
  | converting
  | done
  | error
deriving DecidableEq

inductive OutputFormat where
  | webp
  | avif
deriving DecidableEq

/-- The `Item` record of converter.ts. `inputUrl` (the revocable preview
reference from `URL.createObjectURL`) is modelled as an opaque handle drawn
from a fresh counter. -/
structure Item where
  id : Nat
  file : FileInfo
  inputUrl : Nat
  status : ItemStatus
  outputBlob : Option BlobInfo
  outputMime : Option String
  outputSize : Option Nat
  error : Option String
deriving DecidableEq

instance : Inhabited Item :=
  ⟨{ id := 0, file := ⟨"", "", 0⟩, inputUrl := 0, status := .ready,
     outputBlob := none, outputMime := none, outputSize := none,
     error := none }⟩

/-- The mutable state of `main`: the items collection, the id counter
(`nextItemId`), the preview-handle counter, the two settings controls, and the
error banner text. -/
structure AppState where
  items : List Item
  nextItemId : Nat
  nextUrl : Nat
  format : OutputFormat
  quality : Nat
  errorMsg : String
deriving DecidableEq

/-- The state when the page loads: empty collection, `nextItemId = 0`. The
initial control values are arbitrary defaults (they are presentation data the
claims do not depend on). -/
def initState : AppState :=
  { items := [], nextItemId := 0, nextUrl := 0, format := .webp, quality := 80,
    errorMsg := "" }

/-- The outcome the environment supplies for one conversion attempt: the
decode+encode either yields a blob or throws with a message. -/
inductive ConvOutcome where
  | ok (blob : BlobInfo)
  | fail (msg : String)
deriving DecidableEq

/-- `['image/jpeg', 'image/png'].includes(f.type)`. -/
def acceptType (t : String) : Bool :=
  (["image/jpeg", "image/png"] : List String).contains t

/-- The rejection banner set by `addFiles`. -/
def rejectMsg : String := "JPG または PNG のみ対応しています。"

/-- The loop of `addFiles` over the accepted files: allocate a preview handle,
push an item with a pre-incremented fresh id, `ready` status and no output
fields; returns (new items, next id counter, next handle counter). -/
def addFilesGo : List FileInfo → Nat → Nat → List Item × Nat × Nat
  | [], nid, nurl => ([], nid, nurl)
  | f :: rest, nid, nurl =>
    let it : Item := { id := nid + 1, file := f, inputUrl := nurl,
                       status := .ready, outputBlob := none,
                       outputMime := none, outputSize := none, error := none }
    let r := addFilesGo rest (nid + 1) (nurl + 1)
    (it :: r.1, r.2)

/-- `addFiles(files)`: clear the error banner, partition by accepted MIME
type, report a rejection message when any file was rejected, and append one
new item per accepted file. -/
def addFiles (files : List FileInfo) (st : AppState) : AppState :=
  let p := files.partition (fun f => acceptType f.type)
  let r := addFilesGo p.1 st.nextItemId st.nextUrl
  { st with items := st.items ++ r.1, nextItemId := r.2.1, nextUrl := r.2.2,
            errorMsg := if p.2.isEmpty then "" else rejectMsg }

/-- The start of a conversion attempt: `item.status = 'converting';
item.error = null`. -/
def convertStart (it : Item) : Item :=
  { it with status := .converting, error := none }

/-- `blob.type || (format === 'webp' ? 'image/webp' : 'image/avif')`. -/
def outputMimeOf (fmt : OutputFormat) (b : BlobInfo) : String :=
  if b.type ≠ "" then b.type
  else match fmt with
    | .webp => "image/webp"
    | .avif => "image/avif"

/-- The tail of `convertOne`: on success store the blob, MIME and size and set
`done`; on a caught error set `error` status and message (output fields are
not touched). -/
def convertFinish (fmt : OutputFormat) (o : ConvOutcome) (it : Item) : Item :=
  match o with
  | .ok b =>
    { it with outputBlob := some b, outputMime := some (outputMimeOf fmt b),
              outputSize := some b.size, status := .done }
  | .fail e => { it with status := .error, error := some e }

/-- The tail of `convertOneInternal`: identical to `convertFinish` except that
the success branch also re-clears `error` (line 545). -/
def convertFinishInternal (fmt : OutputFormat) (o : ConvOutcome) (it : Item) :
    Item :=
  match o with
  | .ok b =>
    { it with outputBlob := some b, outputMime := some (outputMimeOf fmt b),
              outputSize := some b.size, status := .done, error := none }
  | .fail e => { it with status := .error, error := some e }

/-- In-place mutation of the item found by `items.find(x => x.id === itemId)`:
replace the first item with the given id. -/
def updateById (id : Nat) (f : Item → Item) : List Item → List Item
  | [] => []
  | it :: rest => if it.id = id then f it :: rest else it :: updateById id f rest

/-- `convertOne(itemId)` with a given environment outcome: no effect when the
id is absent; otherwise clear the error banner and run the conversion attempt
on the found item. -/
def convertOne (id : Nat) (o : ConvOutcome) (st : AppState) : AppState :=
  if (st.items.find? (fun it => it.id == id)).isSome then
    { st with errorMsg := "",
              items := updateById id
                (fun it => convertFinish st.format o (convertStart it))
                st.items }
  else st

/-- `item.status === 'done' && item.outputBlob`: the skip condition of
`convertAll`. -/
def skipDone (it : Item) : Bool :=
  it.status == .done && it.outputBlob.isSome

/-- The sequential loop of `convertAll`: skip items that are `done` with an
output blob, convert the rest in order (consuming environment outcomes by
conversion index); returns (items, next outcome index, converted ids). -/
def convertAllGo (fmt : OutputFormat) (outs : Nat → ConvOutcome) :
    List Item → Nat → List Item × Nat × List Nat
  | [], k => ([], k, [])
  | it :: rest, k =>
    if skipDone it then
      let r := convertAllGo fmt outs rest k
      (it :: r.1, r.2.1, r.2.2)
    else
      let r := convertAllGo fmt outs rest (k + 1)
      (convertFinishInternal fmt (outs k) (convertStart it) :: r.1, r.2.1,
       it.id :: r.2.2)

/-- `convertAll` restricted to the items collection: the resulting collection
and the ids of the items actually converted, in processing order. -/
def convertAllRun (fmt : OutputFormat) (outs : Nat → ConvOutcome)
    (items : List Item) : List Item × List Nat :=
  let r := convertAllGo fmt outs items 0
  (r.1, r.2.2)

/-- `convertAll()`: no effect on an empty collection; otherwise clear the
error banner and run the sequential loop. -/
def convertAll (outs : Nat → ConvOutcome) (st : AppState) : AppState :=
  if st.items.isEmpty then st
  else { st with errorMsg := "",
                 items := (convertAllRun st.format outs st.items).1 }

/-- `clearOutputs()`: null every output field and the error and reset the
status of every item; nothing else changes. -/
def clearOutputs (st : AppState) : AppState :=
  { st with items := st.items.map (fun item =>
      { item with outputBlob := none, outputMime := none, outputSize := none,
                  error := none, status := .ready }) }

/-- The quality slider's `input` listener: record the new value, then
`clearOutputs()`. -/
def setQuality (v : Nat) (st : AppState) : AppState :=
  clearOutputs { st with quality := v }

/-- The format select's `change` listener: record the new format, then
`clearOutputs()`. -/
def setFormat (f : OutputFormat) (st : AppState) : AppState :=
  clearOutputs { st with format := f }

/-- The clear button's handler: `clearError()` then `clearAll()` (which
revokes every preview handle and empties the collection). -/
def clearAllBtn (st : AppState) : AppState :=
  { st with items := [], errorMsg := "" }

/-- One user-triggerable operation of the state machine, with the outcomes the
environment supplies for any conversions it performs. -/
inductive Op where
  | add (files : List FileInfo)
  | convertOne (id : Nat) (o : ConvOutcome)
  | convertAll (outs : Nat → ConvOutcome)
  | setQuality (v : Nat)
  | setFormat (f : OutputFormat)
  | clearAllBtn

/-- The effect of one operation. -/
def step : Op → AppState → AppState
  | .add files => addFiles files
  | .convertOne id o => convertOne id o
  | .convertAll outs => convertAll outs
  | .setQuality v => setQuality v
  | .setFormat f => setFormat f
  | .clearAllBtn => clearAllBtn

/-- Run a sequence of operations from a state. -/
def run (st : AppState) : List Op → AppState
  | [] => st
  | op :: ops => run (step op st) ops

/-- The ids an operation assigns to newly created items: `addFiles` assigns
the next `k` successor values of the id counter to the `k` accepted files;
no other operation creates items. -/
def opCreatedIds (op : Op) (st : AppState) : List Nat :=
  match op with
  | .add files =>
    List.range' (st.nextItemId + 1)
      ((files.partition (fun f => acceptType f.type)).1.length)
  | .convertOne _ _ => []
  | .convertAll _ => []
  | .setQuality _ => []
  | .setFormat _ => []
  | .clearAllBtn => []

/-- All ids assigned during a run, in order of assignment. -/
def createdIds (st : AppState) : List Op → List Nat
  | [] => []
  | op :: ops => opCreatedIds op st ++ createdIds (step op st) ops

/-- Spec: the item "add items" creates for a file — a fresh identifier, the
file, a fresh preview handle, `ready` status, no output fields, no error. -/
def mkNewItem (nid url : Nat) (f : FileInfo) : Item :=
  { id := nid, file := f, inputUrl := url, status := .ready,
    outputBlob := none, outputMime := none, outputSize := none, error := none }

/-- Spec: the per-item effect of "clear outputs" — status back to `ready`,
output fields and error unset, id / file / preview reference untouched. -/
def resetItemSpec (it : Item) : Item :=
  { id := it.id, file := it.file, inputUrl := it.inputUrl, status := .ready,
    outputBlob := none, outputMime := none, outputSize := none, error := none }

/-- All three output fields are set. -/
def outputsAllSet (it : Item) : Prop :=
  it.outputBlob ≠ none ∧ it.outputMime ≠ none ∧ it.outputSize ≠ none

/-- No output field is set. -/
def outputsNoneSet (it : Item) : Prop :=
  it.outputBlob = none ∧ it.outputMime = none ∧ it.outputSize = none

/-- The output-field invariant that actually holds of the code: the three
output fields are set all together or not at all, and a `done` item always
has them set. -/
def outputInv (it : Item) : Prop :=
  (outputsNoneSet it ∨ outputsAllSet it) ∧
    (it.status = .done → outputsAllSet it)

set_option maxRecDepth 100000

/-! ## Theorems -/

/-- C2: `crc32` implements the standard reflected CRC-32 (polynomial
`0xEDB88320`, initial value `0xFFFFFFFF`, final xor `0xFFFFFFFF`): it maps the
empty byte sequence to 0 and the ASCII bytes of "123456789" to the standard
check value `0xCBF43926`. -/
theorem crc32_standard_vectors :
    crc32 [] = 0 ∧
    crc32 [0x31, 0x32, 0x33, 0x34, 0x35, 0x36, 0x37, 0x38, 0x39] =
      0xCBF43926 := by
  constructor
  · decide
  · decide

/-- C4 counterexample: with the quality slider at 80, the quality value
carried by the `AvifEncodeRequest` message is the fraction 4/5, not the
rounded 0-100 integer 80 that the worker later derives from it — so the value
sent across the channel is not the rounded integer. -/
theorem avifRequestQuality_is_fraction :
    avifRequestQuality (qualityFractionFromSlider 80) = 4 / 5 ∧
    workerCodecQuality (avifRequestQuality (qualityFractionFromSlider 80)) =
      80 ∧
    avifRequestQuality (qualityFractionFromSlider 80) ≠ (80 : ℚ) := by
  refine ⟨by norm_num [avifRequestQuality, qualityFractionFromSlider], ?_, ?_⟩
  · show round ((80 : ℚ) / 100 * 100) = 80
    have h : (80 : ℚ) / 100 * 100 = ((80 : ℕ) : ℚ) := by norm_num
    rw [h, round_natCast]
    norm_num
  · show (80 : ℚ) / 100 ≠ 80
    norm_num

theorem localHeaderBytes_eq (e : ZipEntry) :
    localHeaderBytes e = localHeaderSpec e := by
  simp [localHeaderBytes, localHeaderSpec, concat]

theorem centralHeaderBytes_eq (e : ZipEntry) (offset : Nat) :
    centralHeaderBytes e offset = centralRecordSpec e offset := by
  simp [centralHeaderBytes, centralRecordSpec, concat]

theorem localChunkSpec_length (e : ZipEntry) :
    (localChunkSpec e).length = (localHeaderSpec e).length + e.data.length := by
  simp [localChunkSpec]

theorem zipLocalOffset_zero (entries : List ZipEntry) :
    zipLocalOffset entries 0 = 0 := by
  simp [zipLocalOffset]

theorem zipLocalOffset_cons_succ (e : ZipEntry) (rest : List ZipEntry)
    (i : Nat) :
    zipLocalOffset (e :: rest) (i + 1) =
      (localChunkSpec e).length + zipLocalOffset rest i := by
  simp [zipLocalOffset, List.take_succ_cons]

theorem buildZipGo_eq (entries : List ZipEntry) :
    ∀ off : Nat,
      buildZipGo entries off =
        ((entries.map fun e => [localHeaderSpec e, e.data]).flatten,
         (List.range entries.length).map
           (fun i =>
             centralRecordSpec entries[i]! (off + zipLocalOffset entries i)),
         off + ((entries.map localChunkSpec).flatten).length) := by
  induction entries with
  | nil => intro off; simp [buildZipGo]
  | cons e rest ih =>
    intro off
    rw [buildZipGo, ih]
    dsimp only
    refine congrArg₂ Prod.mk ?_ (congrArg₂ Prod.mk ?_ ?_)
    · simp [localHeaderBytes_eq]
    · rw [List.length_cons, List.range_succ_eq_map, List.map_cons,
         List.map_map]
      refine congrArg₂ List.cons ?_ ?_
      · simp [centralHeaderBytes_eq, zipLocalOffset_zero]
      · refine List.map_congr_left ?_
        intro i _
        show centralRecordSpec rest[i]!
              (off + (localHeaderBytes e).length + e.data.length +
                zipLocalOffset rest i) =
            centralRecordSpec (e :: rest)[i + 1]!
              (off + zipLocalOffset (e :: rest) (i + 1))
        rw [List.getElem!_cons_succ, zipLocalOffset_cons_succ,
           localHeaderBytes_eq, localChunkSpec_length]
        refine congrArg (centralRecordSpec rest[i]!) ?_
        omega
    · rw [localHeaderBytes_eq, List.map_cons, List.flatten_cons,
         List.length_append, localChunkSpec_length]
      omega

/-- C1: `buildZip` produces exactly the archive layout the specification
describes: for each entry in input order a local file header (signature
`0x04034b50`, version 20, general-purpose flag with only bit 11 set, method 0,
zero mod time and date, the entry's CRC-32, compressed = uncompressed = data
length, filename length, zero extra length, UTF-8 name bytes) immediately
followed by the raw entry bytes; then one central-directory record per entry
(signature `0x02014b50`, same CRC, sizes and name, offset field equal to the
byte offset of that entry's local header from archive start); then an
end-of-central-directory record (signature `0x06054b50`) whose two entry
counts equal the number of entries, whose size and offset fields describe the
central directory, and whose disk fields are zero. -/
theorem buildZip_eq_zipLayoutSpec (entries : List ZipEntry) :
    buildZip entries = zipLayoutSpec entries := by
  rw [buildZip, buildZipGo_eq entries 0]
  show concat ((entries.map fun e => [localHeaderSpec e, e.data]).flatten) ++
      concat ((List.range entries.length).map fun i =>
        centralRecordSpec entries[i]! (0 + zipLocalOffset entries i)) ++
      concat [u32 0x06054b50, u16 0, u16 0, u16 entries.length,
        u16 entries.length,
        u32 (concat ((List.range entries.length).map fun i =>
          centralRecordSpec entries[i]! (0 + zipLocalOffset entries i))).length,
        u32 (0 + ((entries.map localChunkSpec).flatten).length), u16 0] =
      zipLayoutSpec entries
  have hlocal :
      concat ((entries.map fun e => [localHeaderSpec e, e.data]).flatten) =
        (entries.map localChunkSpec).flatten := by
    induction entries with
    | nil => simp [concat]
    | cons e rest ih => simp_all [concat, localChunkSpec]
  have hcentral :
      concat ((List.range entries.length).map fun i =>
          centralRecordSpec entries[i]! (0 + zipLocalOffset entries i)) =
        zipCentralDirSpec entries := by
    simp [concat, zipCentralDirSpec]
  rw [hlocal, hcentral, zipLayoutSpec, zipEndRecordSpec]
  simp [concat]

theorem lastDotSpec_cons (x : Char) (xs : List Char) :
    lastDotSpec (x :: xs) =
      match lastDotSpec xs with
      | some j => some (j + 1)
      | none => if x = '.' then some 0 else none := by
  rw [lastDotSpec, lastDotSpec, List.length_cons, List.range_succ_eq_map,
     List.filter_cons]
  have hcomp :
      (List.range xs.length).filter
          ((fun i => (x :: xs).getD i ' ' == '.') ∘ Nat.succ) =
        (List.range xs.length).filter (fun i => xs.getD i ' ' == '.') := by
    refine List.filter_congr ?_
    intro i _
    rfl
  rw [List.filter_map, hcomp]
  cases hxs : (List.range xs.length).filter (fun i => xs.getD i ' ' == '.') with
  | nil =>
    by_cases hx : x = '.'
    · simp [hx]
    · simp [hx]
  | cons y ys =>
    have hmap :
        ((y :: ys).map Nat.succ).getLast? = ((y :: ys).getLast?).map Nat.succ :=
      List.getLast?_map _ _
    by_cases hx : x = '.'
    · have h0 : ((x :: xs).getD 0 ' ' == '.') = true := by simp [hx]
      rw [if_pos h0]
      rw [List.map_cons, List.getLast?_cons_cons, ← List.map_cons, hmap]
      cases hys : (y :: ys).getLast? with
      | none => simp at hys
      | some j => simp
    · have h0 : ¬ ((x :: xs).getD 0 ' ' == '.') = true := by simp [hx]
      rw [if_neg h0, hmap]
      cases hys : (y :: ys).getLast? with
      | none => simp at hys
      | some j => simp

theorem lastIndexOf_dot_eq (cs : List Char) :
    lastIndexOf '.' cs =
      match lastDotSpec cs with
      | some i => (i : Int)
      | none => -1 := by
  induction cs with
  | nil => simp [lastIndexOf, lastDotSpec]
  | cons x xs ih =>
    cases h : lastDotSpec xs with
    | some j =>
      rw [lastIndexOf, ih, h, lastDotSpec_cons, h]
      have : ((j : Int) ≥ 0) := Int.natCast_nonneg j
      simp only [this, if_pos]
      push_cast
      ring
    | none =>
      rw [lastIndexOf, ih, h, lastDotSpec_cons, h]
      by_cases hx : x = '.' <;> simp [hx]

/-- C10: the export filename is derived by replacing the input's extension
with the target extension: when the input's last dot sits at an index greater
than 0 the name is cut at that dot, otherwise (no dot, or the only dot is the
leading character) the extension is appended to the whole name; in
particular `photo.JPEG` with target extension `avif` yields `photo.avif`. -/
theorem withExt_replaces_extension :
    (∀ cs ext : List Char, withExt cs ext = withExtSpec cs ext) ∧
    withExt "photo.JPEG".toList "avif".toList = "photo.avif".toList := by
  constructor
  · intro cs ext
    rw [withExt, withExtSpec, stripExt, lastIndexOf_dot_eq]
    cases h : lastDotSpec cs with
    | none => simp
    | some i =>
      by_cases hi : 0 < i
      · have : ((i : Int) > 0) := by exact_mod_cast hi
        simp [this, hi]
      · have : ¬ ((i : Int) > 0) := by
          simp only [not_lt] at hi ⊢
          exact_mod_cast hi
        simp [this, hi]
  · decide

theorem lookup_some_mem_keys (k tok : Nat) :
    ∀ l : List (Nat × Nat), l.lookup k = some tok → k ∈ l.map Prod.fst := by
  intro l
  induction l with
  | nil => intro h; simp [List.lookup] at h
  | cons p rest ih =>
    intro h
    rw [List.lookup] at h
    by_cases hk : k = p.1
    · simp [hk]
    · have : (k == p.1) = false := by simp [hk]
      rw [this] at h
      simp only [List.map_cons, List.mem_cons]
      exact Or.inr (ih h)

theorem erasePending_keys (k : Nat) :
    ∀ l : List (Nat × Nat),
      (erasePending k l).map Prod.fst = (l.map Prod.fst).erase k := by
  intro l
  induction l with
  | nil => rfl
  | cons p rest ih =>
    rw [erasePending]
    by_cases hk : p.1 = k
    · simp [hk, List.erase_cons]
    · have : (p.1 == k) = false := by simp [hk]
      simp [hk, List.erase_cons, this, ih]

theorem erasePending_sublist (k : Nat) :
    ∀ l : List (Nat × Nat), (erasePending k l).Sublist l := by
  intro l
  induction l with
  | nil => exact List.Sublist.refl []
  | cons p rest ih =>
    rw [erasePending]
    by_cases hk : p.1 = k
    · simp only [hk, if_pos rfl]
      exact List.sublist_cons_self p rest
    · simp only [if_neg hk]
      exact List.Sublist.cons₂ p ih

theorem handleAvifMessage_pending_sublist (pending : List (Nat × Nat))
    (msg : AvifMsg) :
    ((handleAvifMessage pending msg).1).Sublist pending := by
  rw [handleAvifMessage]
  by_cases ht : msg.tag ≠ "encode-avif-result"
  · simp [ht]
  · rw [if_neg (by simpa using ht)]
    cases h : pending.lookup msg.id with
    | none => exact List.Sublist.refl pending
    | some tok => exact erasePending_sublist msg.id pending

theorem handleAvifMessage_event_mem_keys (pending : List (Nat × Nat))
    (msg : AvifMsg) (ev : AvifEvent)
    (h : (handleAvifMessage pending msg).2 = some ev) :
    ev.reqId ∈ pending.map Prod.fst := by
  rw [handleAvifMessage] at h
  by_cases ht : msg.tag ≠ "encode-avif-result"
  · simp [ht] at h
  · rw [if_neg (by simpa using ht)] at h
    cases hl : pending.lookup msg.id with
    | none => rw [hl] at h; simp at h
    | some tok =>
      rw [hl] at h
      simp only [Option.some.injEq] at h
      have hid : ev.reqId = msg.id := by
        cases hok : msg.ok <;> simp [hok] at h <;> simp [← h, AvifEvent.reqId]
      rw [hid]
      exact lookup_some_mem_keys msg.id tok pending hl

theorem handleAvifMessage_none_unchanged (pending : List (Nat × Nat))
    (msg : AvifMsg) (h : (handleAvifMessage pending msg).2 = none) :
    (handleAvifMessage pending msg).1 = pending := by
  rw [handleAvifMessage] at h ⊢
  by_cases ht : msg.tag ≠ "encode-avif-result"
  · simp [ht]
  · rw [if_neg (by simpa using ht)] at h ⊢
    cases hl : pending.lookup msg.id with
    | none => rfl
    | some tok => rw [hl] at h; simp at h

theorem handleAvifMessage_some_not_mem (pending : List (Nat × Nat))
    (msg : AvifMsg) (ev : AvifEvent)
    (hnd : (pending.map Prod.fst).Nodup)
    (h : (handleAvifMessage pending msg).2 = some ev) :
    ev.reqId ∉ ((handleAvifMessage pending msg).1).map Prod.fst := by
  rw [handleAvifMessage] at h ⊢
  by_cases ht : msg.tag ≠ "encode-avif-result"
  · simp [ht] at h
  · rw [if_neg (by simpa using ht)] at h ⊢
    cases hl : pending.lookup msg.id with
    | none => rw [hl] at h; simp at h
    | some tok =>
      rw [hl] at h
      simp only [Option.some.injEq] at h
      have hid : ev.reqId = msg.id := by
        cases hok : msg.ok <;> simp [hok] at h <;> simp [← h, AvifEvent.reqId]
      show ev.reqId ∉ (erasePending msg.id pending).map Prod.fst
      rw [hid, erasePending_keys]
      intro hmem
      exact ((List.Nodup.mem_erase_iff hnd).1 hmem).1 rfl

theorem processAvifMessages_event_mem_keys (msgs : List AvifMsg) :
    ∀ (pending : List (Nat × Nat)) (ev : AvifEvent),
      ev ∈ (processAvifMessages pending msgs).2 →
        ev.reqId ∈ pending.map Prod.fst := by
  induction msgs with
  | nil => intro pending ev h; simp [processAvifMessages] at h
  | cons m rest ih =>
    intro pending ev h
    rw [processAvifMessages] at h
    simp only [List.mem_append] at h
    rcases h with h | h
    · cases he : (handleAvifMessage pending m).2 with
      | none => rw [he] at h; simp at h
      | some ev0 =>
        rw [he] at h
        simp only [Option.toList_some, List.mem_singleton] at h
        rw [h]
        exact handleAvifMessage_event_mem_keys pending m ev0 he
    · have := ih (handleAvifMessage pending m).1 ev h
      have hsub := (handleAvifMessage_pending_sublist pending m).map Prod.fst
      exact hsub.subset this

theorem processAvifMessages_at_most_once (msgs : List AvifMsg) :
    ∀ pending : List (Nat × Nat), (pending.map Prod.fst).Nodup →
      ∀ j : Nat,
        (((processAvifMessages pending msgs).2).filter
          (fun ev => ev.reqId == j)).length ≤ 1 := by
  induction msgs with
  | nil => intro pending _ j; simp [processAvifMessages]
  | cons m rest ih =>
    intro pending hnd j
    rw [processAvifMessages]
    have hnd' : (((handleAvifMessage pending m).1).map Prod.fst).Nodup :=
      ((handleAvifMessage_pending_sublist pending m).map Prod.fst).nodup hnd
    cases he : (handleAvifMessage pending m).2 with
    | none =>
      simp only [he, Option.toList_none, List.nil_append]
      exact ih _ hnd' j
    | some ev =>
      simp only [he, Option.toList_some, List.singleton_append,
        List.filter_cons]
      by_cases hj : ev.reqId = j
      · have hb : (ev.reqId == j) = true := by simp [hj]
        rw [if_pos hb, List.length_cons]
        have hzero :
            (((processAvifMessages (handleAvifMessage pending m).1 rest).2).filter
              (fun ev2 => ev2.reqId == j)).length = 0 := by
          rw [List.length_eq_zero, List.filter_eq_nil_iff]
          intro ev2 hmem
          have hk := processAvifMessages_event_mem_keys rest _ ev2 hmem
          have hnot := handleAvifMessage_some_not_mem pending m ev hnd he
          intro hbeq
          have : ev2.reqId = j := by simpa using hbeq
          rw [this, ← hj] at hk
          exact hnot hk
        omega
      · have hb : (ev.reqId == j) = false := by simp [hj]
        rw [if_neg (by simp [hb])]
        exact ih _ hnd' j

/-- C5: response handling on the Encode Channel. A response whose tag is
right and whose id matches a registered pending completion removes exactly
that completion from the pending map (the map's key list loses exactly that
id) and resolves it (ok) or rejects it (error); a response whose id matches no
pending completion leaves the map unchanged and resolves nothing; and over any
sequence of responses — in any order — each pending id is resolved or
rejected at most once, provided the registered ids are distinct. -/
theorem avifChannel_correlation (pending : List (Nat × Nat))
    (hnd : (pending.map Prod.fst).Nodup) :
    (∀ msg : AvifMsg, ∀ tok : Nat, msg.tag = "encode-avif-result" →
      pending.lookup msg.id = some tok →
        handleAvifMessage pending msg =
          (erasePending msg.id pending,
           some (if msg.ok then AvifEvent.resolved msg.id tok msg.bytes
                 else AvifEvent.rejected msg.id tok msg.error)) ∧
        (erasePending msg.id pending).map Prod.fst =
          (pending.map Prod.fst).erase msg.id) ∧
    (∀ msg : AvifMsg, pending.lookup msg.id = none →
        handleAvifMessage pending msg = (pending, none)) ∧
    (∀ (msgs : List AvifMsg) (j : Nat),
        (((processAvifMessages pending msgs).2).filter
          (fun ev => ev.reqId == j)).length ≤ 1) := by
  refine ⟨?_, ?_, ?_⟩
  · intro msg tok htag hl
    constructor
    · rw [handleAvifMessage, if_neg (by simp [htag]), hl]
    · exact erasePending_keys msg.id pending
  · intro msg hl
    rw [handleAvifMessage]
    by_cases ht : msg.tag ≠ "encode-avif-result"
    · simp [ht]
    · rw [if_neg (by simpa using ht), hl]
  · intro msgs j
    exact processAvifMessages_at_most_once msgs pending hnd j

/-- Witness for C5 at the pending map of the spec's correlation test — two
registered completions with ids 1 and 2. -/
theorem avifChannel_correlation_witness :
    (([(1, 10), (2, 20)] : List (Nat × Nat)).map Prod.fst).Nodup ∧
    ((∀ msg : AvifMsg, ∀ tok : Nat, msg.tag = "encode-avif-result" →
      ([(1, 10), (2, 20)] : List (Nat × Nat)).lookup msg.id = some tok →
        handleAvifMessage [(1, 10), (2, 20)] msg =
          (erasePending msg.id [(1, 10), (2, 20)],
           some (if msg.ok then AvifEvent.resolved msg.id tok msg.bytes
                 else AvifEvent.rejected msg.id tok msg.error)) ∧
        (erasePending msg.id [(1, 10), (2, 20)]).map Prod.fst =
          (([(1, 10), (2, 20)] : List (Nat × Nat)).map Prod.fst).erase
            msg.id) ∧
    (∀ msg : AvifMsg, ([(1, 10), (2, 20)] : List (Nat × Nat)).lookup msg.id =
        none →
        handleAvifMessage [(1, 10), (2, 20)] msg = ([(1, 10), (2, 20)], none)) ∧
    (∀ (msgs : List AvifMsg) (j : Nat),
        (((processAvifMessages [(1, 10), (2, 20)] msgs).2).filter
          (fun ev => ev.reqId == j)).length ≤ 1)) :=
  ⟨by decide, avifChannel_correlation [(1, 10), (2, 20)] (by decide)⟩

/-- C4 amended: the request message posted to the Encode Channel carries the
[0,1] quality fraction unchanged; the conversion to the rounded 0-100 integer
scale happens in the worker, after the message crosses the channel, and for a
slider value `v` the codec receives exactly `v`. -/
theorem avifQuality_fraction_sent_worker_rounds (v : ℕ) :
    avifRequestQuality (qualityFractionFromSlider v) =
      qualityFractionFromSlider v ∧
    workerCodecQuality (avifRequestQuality (qualityFractionFromSlider v)) =
      v := by
  refine ⟨rfl, ?_⟩
  show round ((v : ℚ) / 100 * 100) = v
  rw [div_mul_cancel₀ ((v : ℚ)) (by norm_num : (100 : ℚ) ≠ 0), round_natCast]

theorem addFilesGo_eq (fs : List FileInfo) :
    ∀ nid nurl : Nat,
      addFilesGo fs nid nurl =
        ((List.range fs.length).map
           (fun i => mkNewItem (nid + 1 + i) (nurl + i) fs[i]!),
         nid + fs.length, nurl + fs.length) := by
  induction fs with
  | nil => intro nid nurl; simp [addFilesGo]
  | cons f rest ih =>
    intro nid nurl
    rw [addFilesGo, ih]
    dsimp only
    refine congrArg₂ Prod.mk ?_ ?_
    · rw [List.length_cons, List.range_succ_eq_map, List.map_cons,
         List.map_map]
      refine congrArg₂ List.cons ?_ ?_
      · simp [mkNewItem]
      · refine List.map_congr_left ?_
        intro i _
        simp only [Function.comp_apply, Nat.succ_eq_add_one,
          List.getElem!_cons_succ]
        have h1 : nid + 1 + 1 + i = nid + 1 + (i + 1) := by omega
        have h2 : nurl + 1 + i = nurl + (i + 1) := by omega
        rw [h1, h2]
    · refine congrArg₂ Prod.mk ?_ ?_ <;> simp <;> omega

/-- C7: `addFiles` creates exactly one new item per file whose declared MIME
type is accepted (`image/jpeg` or `image/png`), appended after the existing
items in the same relative order as the input batch, each with a fresh
identifier, a fresh preview handle, `ready` status, no output fields and no
error; files of any other type create no item but set the rejection message,
and their presence does not prevent the accepted files from being added (the
result depends only on the accepted sublist). -/
theorem addFiles_characterization (files : List FileInfo) (st : AppState) :
    (addFiles files st).items =
      st.items ++
        (List.range (files.filter (fun f => acceptType f.type)).length).map
          (fun i => mkNewItem (st.nextItemId + 1 + i) (st.nextUrl + i)
            (files.filter (fun f => acceptType f.type))[i]!) ∧
    (addFiles files st).items.length =
      st.items.length + (files.filter (fun f => acceptType f.type)).length ∧
    (addFiles files st).errorMsg =
      (if files.all (fun f => acceptType f.type) then "" else rejectMsg) := by
  have hpart := List.partition_eq_filter_filter
    (fun f => acceptType f.type) files
  refine ⟨?_, ?_, ?_⟩
  · rw [addFiles]
    dsimp only
    rw [hpart]
    dsimp only
    rw [addFilesGo_eq]
  · rw [addFiles]
    dsimp only
    rw [hpart]
    dsimp only
    rw [addFilesGo_eq]
    simp
  · rw [addFiles]
    dsimp only
    rw [hpart]
    dsimp only
    have : ((files.filter (not ∘ fun f => acceptType f.type)).isEmpty) =
        files.all (fun f => acceptType f.type) := by
      induction files with
      | nil => rfl
      | cons f rest ihf =>
        by_cases hf : acceptType f.type <;>
          simp [List.filter_cons, hf, ihf, Function.comp]
    rw [this]

/-- C8: clear-outputs — also as triggered by a quality or format settings
change — sets every item's status to `ready` and unsets `outputBlob`,
`outputMime`, `outputSize` and `error`, while leaving each item's id, file and
preview reference unchanged and leaving the collection's length and order
unchanged (it maps `resetItemSpec` over the collection and touches nothing
else of the state). -/
theorem clearOutputs_resets_items (st : AppState) (v : Nat)
    (f : OutputFormat) :
    clearOutputs st = { st with items := st.items.map resetItemSpec } ∧
    (step (.setQuality v) st).items = st.items.map resetItemSpec ∧
    (step (.setFormat f) st).items = st.items.map resetItemSpec ∧
    (clearOutputs st).items.length = st.items.length := by
  refine ⟨rfl, rfl, rfl, by simp [clearOutputs]⟩

theorem outputInv_mkNewItem (nid url : Nat) (f : FileInfo) :
    outputInv (mkNewItem nid url f) := by
  simp [outputInv, outputsNoneSet, outputsAllSet, mkNewItem]

theorem outputInv_resetItemSpec (it : Item) : outputInv (resetItemSpec it) := by
  simp [outputInv, outputsNoneSet, outputsAllSet, resetItemSpec]

theorem outputInv_convert (fmt : OutputFormat) (o : ConvOutcome) (it : Item)
    (h : outputInv it) : outputInv (convertFinish fmt o (convertStart it)) := by
  cases o with
  | ok b => simp [convertFinish, convertStart, outputInv, outputsAllSet]
  | fail e =>
    refine ⟨?_, ?_⟩
    · have := h.1
      simpa [convertFinish, convertStart, outputsNoneSet, outputsAllSet]
        using this
    · intro hd
      simp [convertFinish, convertStart] at hd

theorem outputInv_convertInternal (fmt : OutputFormat) (o : ConvOutcome)
    (it : Item) (h : outputInv it) :
    outputInv (convertFinishInternal fmt o (convertStart it)) := by
  cases o with
  | ok b => simp [convertFinishInternal, convertStart, outputInv, outputsAllSet]
  | fail e =>
    refine ⟨?_, ?_⟩
    · have := h.1
      simpa [convertFinishInternal, convertStart, outputsNoneSet,
        outputsAllSet] using this
    · intro hd
      simp [convertFinishInternal, convertStart] at hd

theorem updateById_mem (id : Nat) (f : Item → Item) :
    ∀ (l : List Item) (it : Item), it ∈ updateById id f l →
      it ∈ l ∨ ∃ it0 ∈ l, it = f it0 := by
  intro l
  induction l with
  | nil => intro it h; simp [updateById] at h
  | cons x rest ih =>
    intro it h
    rw [updateById] at h
    by_cases hx : x.id = id
    · rw [if_pos hx] at h
      rcases List.mem_cons.1 h with h | h
      · exact Or.inr ⟨x, List.mem_cons_self x rest, h⟩
      · exact Or.inl (List.mem_cons_of_mem x h)
    · rw [if_neg hx] at h
      rcases List.mem_cons.1 h with h | h
      · exact Or.inl (h ▸ List.mem_cons_self x rest)
      · rcases ih it h with h2 | ⟨it0, hm, he⟩
        · exact Or.inl (List.mem_cons_of_mem x h2)
        · exact Or.inr ⟨it0, List.mem_cons_of_mem x hm, he⟩

theorem convertAllGo_mem (fmt : OutputFormat) (outs : Nat → ConvOutcome) :
    ∀ (l : List Item) (k : Nat) (it : Item),
      it ∈ (convertAllGo fmt outs l k).1 →
        it ∈ l ∨ ∃ it0 ∈ l, ∃ j : Nat,
          it = convertFinishInternal fmt (outs j) (convertStart it0) := by
  intro l
  induction l with
  | nil => intro k it h; simp [convertAllGo] at h
  | cons x rest ih =>
    intro k it h
    rw [convertAllGo] at h
    by_cases hx : skipDone x
    · rw [if_pos hx] at h
      rcases List.mem_cons.1 h with h | h
      · exact Or.inl (h ▸ List.mem_cons_self x rest)
      · rcases ih k it h with h2 | ⟨it0, hm, j, he⟩
        · exact Or.inl (List.mem_cons_of_mem x h2)
        · exact Or.inr ⟨it0, List.mem_cons_of_mem x hm, j, he⟩
    · rw [if_neg hx] at h
      rcases List.mem_cons.1 h with h | h
      · exact Or.inr ⟨x, List.mem_cons_self x rest, k, h⟩
      · rcases ih (k + 1) it h with h2 | ⟨it0, hm, j, he⟩
        · exact Or.inl (List.mem_cons_of_mem x h2)
        · exact Or.inr ⟨it0, List.mem_cons_of_mem x hm, j, he⟩

theorem step_outputInv (op : Op) (st : AppState)
    (h : ∀ it ∈ st.items, outputInv it) :
    ∀ it ∈ (step op st).items, outputInv it := by
  cases op with
  | add files =>
    intro it hm
    rw [step, addFiles] at hm
    dsimp only at hm
    rcases List.mem_append.1 hm with hm | hm
    · exact h it hm
    · rw [List.partition_eq_filter_filter, addFilesGo_eq] at hm
      dsimp only at hm
      rcases List.mem_map.1 hm with ⟨i, _, he⟩
      rw [← he]
      exact outputInv_mkNewItem _ _ _
  | convertOne id o =>
    intro it hm
    rw [step, convertOne] at hm
    by_cases hf : (st.items.find? (fun it2 => it2.id == id)).isSome
    · rw [if_pos hf] at hm
      dsimp only at hm
      rcases updateById_mem id _ st.items it hm with h2 | ⟨it0, hm0, he⟩
      · exact h it h2
      · rw [he]
        exact outputInv_convert st.format o it0 (h it0 hm0)
    · rw [if_neg hf] at hm
      exact h it hm
  | convertAll outs =>
    intro it hm
    rw [step, convertAll] at hm
    by_cases he : st.items.isEmpty
    · rw [if_pos he] at hm
      exact h it hm
    · rw [if_neg he] at hm
      dsimp only at hm
      rw [convertAllRun] at hm
      dsimp only at hm
      rcases convertAllGo_mem st.format outs st.items 0 it hm with
        h2 | ⟨it0, hm0, j, hej⟩
      · exact h it h2
      · rw [hej]
        exact outputInv_convertInternal st.format (outs j) it0 (h it0 hm0)
  | setQuality v =>
    intro it hm
    rw [step, setQuality, clearOutputs] at hm
    dsimp only at hm
    rcases List.mem_map.1 hm with ⟨it0, _, he⟩
    rw [← he]
    exact outputInv_resetItemSpec it0
  | setFormat f =>
    intro it hm
    rw [step, setFormat, clearOutputs] at hm
    dsimp only at hm
    rcases List.mem_map.1 hm with ⟨it0, _, he⟩
    rw [← he]
    exact outputInv_resetItemSpec it0
  | clearAllBtn =>
    intro it hm
    rw [step, clearAllBtn] at hm
    simp at hm

theorem run_outputInv (ops : List Op) :
    ∀ st : AppState, (∀ it ∈ st.items, outputInv it) →
      ∀ it ∈ (run st ops).items, outputInv it := by
  induction ops with
  | nil => intro st h it hm; exact h it hm
  | cons op rest ih =>
    intro st h
    rw [run]
    exact ih (step op st) (step_outputInv op st h)

/-- C3 counterexample: re-converting an already-`done` item and failing leaves
status = `error` with all three output fields still set (from the earlier
successful conversion) — so "output fields are set iff status is `done`" is
false on the code: `convertOne` does not clear the output fields when it
starts or when it fails. -/
theorem error_item_keeps_outputs :
    ((run initState
        [Op.add [⟨"a.jpg", "image/jpeg", 3⟩],
         Op.convertOne 1 (.ok ⟨"image/webp", 5⟩),
         Op.convertOne 1 (.fail "decode failed")]).items.getD 0
      default).status = ItemStatus.error ∧
    ((run initState
        [Op.add [⟨"a.jpg", "image/jpeg", 3⟩],
         Op.convertOne 1 (.ok ⟨"image/webp", 5⟩),
         Op.convertOne 1 (.fail "decode failed")]).items.getD 0
      default).outputBlob ≠ none ∧
    ((run initState
        [Op.add [⟨"a.jpg", "image/jpeg", 3⟩],
         Op.convertOne 1 (.ok ⟨"image/webp", 5⟩),
         Op.convertOne 1 (.fail "decode failed")]).items.getD 0
      default).outputMime ≠ none ∧
    ((run initState
        [Op.add [⟨"a.jpg", "image/jpeg", 3⟩],
         Op.convertOne 1 (.ok ⟨"image/webp", 5⟩),
         Op.convertOne 1 (.fail "decode failed")]).items.getD 0
      default).outputSize ≠ none := by
  refine ⟨by decide, by decide, by decide, by decide⟩

/-- C3 amended: at every operation boundary of every operation sequence, every
item has either none or all three of `outputBlob`, `outputMime`, `outputSize`
set — never a strict subset, and a `done` item always has all three set; but
the converse fails: an item that was `done` and is re-converted keeps its
output fields while `converting`, and keeps them after a failed re-conversion
(`error`). -/
theorem reachable_items_outputInv (ops : List Op) (it : Item)
    (h : it ∈ (run initState ops).items) : outputInv it :=
  run_outputInv ops initState (by simp [initState]) it h

/-- Witness for the amended C3 at a concrete run: the single item created by
adding one JPEG file. -/
theorem reachable_items_outputInv_witness :
    ({ id := 1, file := ⟨"a.jpg", "image/jpeg", 3⟩, inputUrl := 0,
       status := .ready, outputBlob := none, outputMime := none,
       outputSize := none, error := none } : Item) ∈
      (run initState [Op.add [⟨"a.jpg", "image/jpeg", 3⟩]]).items ∧
    outputInv
      { id := 1, file := ⟨"a.jpg", "image/jpeg", 3⟩, inputUrl := 0,
        status := .ready, outputBlob := none, outputMime := none,
        outputSize := none, error := none } :=
  ⟨by decide,
   reachable_items_outputInv [Op.add [⟨"a.jpg", "image/jpeg", 3⟩]] _
     (by decide)⟩

theorem convertAllGo_ids (fmt : OutputFormat) (outs : Nat → ConvOutcome) :
    ∀ (items : List Item),
      (∀ it ∈ items, it.status = .done → it.outputBlob ≠ none) →
      ∀ k : Nat,
        (convertAllGo fmt outs items k).2.2 =
          (items.filter (fun it => !(it.status == ItemStatus.done))).map
            Item.id := by
  intro items
  induction items with
  | nil => intro _ k; simp [convertAllGo]
  | cons x rest ih =>
    intro h k
    have hrest : ∀ it ∈ rest, it.status = .done → it.outputBlob ≠ none :=
      fun it hm => h it (List.mem_cons_of_mem x hm)
    rw [convertAllGo, List.filter_cons]
    by_cases hx : skipDone x
    · have hdone : x.status = ItemStatus.done := by
        have := hx
        simp [skipDone] at this
        exact this.1
      rw [if_pos hx]
      have hpred : (!(x.status == ItemStatus.done)) = false := by
        simp [hdone]
      rw [hpred]
      simp only [Bool.false_eq_true, if_neg (by simp : ¬ False)]
      exact ih hrest k
    · have hnotdone : ¬ x.status = ItemStatus.done := by
        intro hd
        have hb := h x (List.mem_cons_self x rest) hd
        have : skipDone x = true := by
          simp [skipDone, hd, Option.isSome_iff_ne_none]
          exact hb
        exact hx this
      rw [if_neg hx]
      have hpred : (!(x.status == ItemStatus.done)) = true := by
        simp [hnotdone]
      rw [hpred]
      simp only [if_pos trivial, List.map_cons]
      exact congrArg (x.id :: ·) (ih hrest (k + 1))

theorem convertAllGo_alldone (fmt : OutputFormat) (outs : Nat → ConvOutcome) :
    ∀ (items : List Item),
      (∀ it ∈ items, it.status = .done ∧ it.outputBlob ≠ none) →
      ∀ k : Nat, convertAllGo fmt outs items k = (items, k, []) := by
  intro items
  induction items with
  | nil => intro _ k; rfl
  | cons x rest ih =>
    intro h k
    have hx : skipDone x = true := by
      obtain ⟨hd, hb⟩ := h x (List.mem_cons_self x rest)
      simp [skipDone, hd, Option.isSome_iff_ne_none]
      exact hb
    rw [convertAllGo, if_pos hx,
       ih (fun it hm => h it (List.mem_cons_of_mem x hm)) k]

/-- C6: convert-all skips exactly the items that are already `done` (under
the reachable-state invariant that a `done` item has its output blob set, the
code's skip test `done && outputBlob` coincides with "already done"): the ids
of the converted items are exactly the non-`done` items' ids in collection
order; and when every item is already `done`, convert-all performs zero
conversions and leaves every item's status and output fields unchanged. -/
theorem convertAll_skips_done (fmt : OutputFormat) (outs : Nat → ConvOutcome)
    (items : List Item)
    (h : ∀ it ∈ items, it.status = .done → it.outputBlob ≠ none) :
    (convertAllRun fmt outs items).2 =
      (items.filter (fun it => !(it.status == ItemStatus.done))).map Item.id ∧
    ((∀ it ∈ items, it.status = .done) →
      convertAllRun fmt outs items = (items, [])) := by
  constructor
  · rw [convertAllRun]
    exact convertAllGo_ids fmt outs items h 0
  · intro hall
    rw [convertAllRun, convertAllGo_alldone fmt outs items
      (fun it hm => ⟨hall it hm, h it hm (hall it hm)⟩) 0]

/-- Witness for C6: a collection with one `done` item (output set) and the
trivial outcome supply — convert-all converts nothing and changes nothing. -/
theorem convertAll_skips_done_witness :
    (∀ it ∈ ([{ id := 1, file := ⟨"a.jpg", "image/jpeg", 3⟩, inputUrl := 0,
                status := .done, outputBlob := some ⟨"image/webp", 5⟩,
                outputMime := some "image/webp", outputSize := some 5,
                error := none }] : List Item),
       it.status = .done → it.outputBlob ≠ none) ∧
    ((convertAllRun .webp (fun _ => ConvOutcome.fail "")
        [{ id := 1, file := ⟨"a.jpg", "image/jpeg", 3⟩, inputUrl := 0,
           status := .done, outputBlob := some ⟨"image/webp", 5⟩,
           outputMime := some "image/webp", outputSize := some 5,
           error := none }]).2 =
      (([{ id := 1, file := ⟨"a.jpg", "image/jpeg", 3⟩, inputUrl := 0,
           status := .done, outputBlob := some ⟨"image/webp", 5⟩,
           outputMime := some "image/webp", outputSize := some 5,
           error := none }] : List Item).filter
        (fun it => !(it.status == ItemStatus.done))).map Item.id ∧
    ((∀ it ∈ ([{ id := 1, file := ⟨"a.jpg", "image/jpeg", 3⟩, inputUrl := 0,
                 status := .done, outputBlob := some ⟨"image/webp", 5⟩,
                 outputMime := some "image/webp", outputSize := some 5,
                 error := none }] : List Item), it.status = .done) →
      convertAllRun .webp (fun _ => ConvOutcome.fail "")
        [{ id := 1, file := ⟨"a.jpg", "image/jpeg", 3⟩, inputUrl := 0,
           status := .done, outputBlob := some ⟨"image/webp", 5⟩,
           outputMime := some "image/webp", outputSize := some 5,
           error := none }] =
        ([{ id := 1, file := ⟨"a.jpg", "image/jpeg", 3⟩, inputUrl := 0,
            status := .done, outputBlob := some ⟨"image/webp", 5⟩,
            outputMime := some "image/webp", outputSize := some 5,
            error := none }], []))) :=
  ⟨by decide, convertAll_skips_done .webp (fun _ => ConvOutcome.fail "") _
    (by decide)⟩

theorem convert_id_preserved (fmt : OutputFormat) (o : ConvOutcome)
    (it : Item) : (convertFinish fmt o (convertStart it)).id = it.id := by
  cases o <;> rfl

theorem convertInternal_id_preserved (fmt : OutputFormat) (o : ConvOutcome)
    (it : Item) :
    (convertFinishInternal fmt o (convertStart it)).id = it.id := by
  cases o <;> rfl

theorem updateById_map_id (id : Nat) (f : Item → Item)
    (hf : ∀ it : Item, (f it).id = it.id) :
    ∀ l : List Item, (updateById id f l).map Item.id = l.map Item.id := by
  intro l
  induction l with
  | nil => rfl
  | cons x rest ih =>
    rw [updateById]
    by_cases hx : x.id = id
    · rw [if_pos hx]
      simp [hf x]
    · rw [if_neg hx]
      simp [ih]

theorem convertAllGo_map_id (fmt : OutputFormat) (outs : Nat → ConvOutcome) :
    ∀ (l : List Item) (k : Nat),
      ((convertAllGo fmt outs l k).1).map Item.id = l.map Item.id := by
  intro l
  induction l with
  | nil => intro k; rfl
  | cons x rest ih =>
    intro k
    rw [convertAllGo]
    by_cases hx : skipDone x
    · rw [if_pos hx]
      simp [ih k]
    · rw [if_neg hx]
      simp [ih (k + 1), convertInternal_id_preserved]

theorem step_ids_sublist (op : Op) (st : AppState) :
    ((step op st).items.map Item.id).Sublist
      (st.items.map Item.id ++ opCreatedIds op st) := by
  cases op with
  | add files =>
    rw [step, addFiles, opCreatedIds]
    dsimp only
    rw [List.map_append, addFilesGo_eq]
    dsimp only
    have :
        ((List.range
            ((files.partition (fun f => acceptType f.type)).1).length).map
          (fun i => mkNewItem (st.nextItemId + 1 + i) (st.nextUrl + i)
            ((files.partition (fun f => acceptType f.type)).1)[i]!)).map
            Item.id =
          List.range' (st.nextItemId + 1)
            ((files.partition (fun f => acceptType f.type)).1).length := by
      rw [List.map_map, List.range'_eq_map_range]
      refine List.map_congr_left ?_
      intro i _
      simp [mkNewItem]
    rw [this]
  | convertOne id o =>
    rw [step, convertOne, opCreatedIds, List.append_nil]
    by_cases hf : (st.items.find? (fun it2 => it2.id == id)).isSome
    · rw [if_pos hf]
      dsimp only
      rw [updateById_map_id id _ (convert_id_preserved st.format o) st.items]
    · rw [if_neg hf]
  | convertAll outs =>
    rw [step, convertAll, opCreatedIds, List.append_nil]
    by_cases he : st.items.isEmpty
    · rw [if_pos he]
    · rw [if_neg he]
      dsimp only
      rw [convertAllRun]
      dsimp only
      rw [convertAllGo_map_id st.format outs st.items 0]
  | setQuality v =>
    rw [step, setQuality, clearOutputs, opCreatedIds, List.append_nil]
    dsimp only
    rw [List.map_map]
    rfl
  | setFormat f =>
    rw [step, setFormat, clearOutputs, opCreatedIds, List.append_nil]
    dsimp only
    rw [List.map_map]
    rfl
  | clearAllBtn =>
    rw [step, clearAllBtn, opCreatedIds]
    exact List.nil_sublist _

theorem step_nextItemId (op : Op) (st : AppState) :
    (step op st).nextItemId = st.nextItemId + (opCreatedIds op st).length := by
  cases op with
  | add files =>
    rw [step, addFiles, opCreatedIds]
    dsimp only
    rw [addFilesGo_eq]
    simp [List.length_range']
  | convertOne id o =>
    rw [step, convertOne, opCreatedIds]
    by_cases hf : (st.items.find? (fun it2 => it2.id == id)).isSome
    · rw [if_pos hf]
      simp
    · rw [if_neg hf]
      simp
  | convertAll outs =>
    rw [step, convertAll, opCreatedIds]
    by_cases he : st.items.isEmpty
    · rw [if_pos he]
      simp
    · rw [if_neg he]
      simp
  | setQuality v => simp [step, setQuality, clearOutputs, opCreatedIds]
  | setFormat f => simp [step, setFormat, clearOutputs, opCreatedIds]
  | clearAllBtn => simp [step, clearAllBtn, opCreatedIds]

theorem opCreatedIds_mem (op : Op) (st : AppState) (j : Nat)
    (hj : j ∈ opCreatedIds op st) :
    st.nextItemId < j ∧ j ≤ (step op st).nextItemId := by
  rw [step_nextItemId]
  cases op with
  | add files =>
    rw [opCreatedIds] at hj ⊢
    have := List.mem_range'_1.1 hj
    constructor <;> [omega; (rw [List.length_range']; omega)]
  | convertOne id o => simp [opCreatedIds] at hj
  | convertAll outs => simp [opCreatedIds] at hj
  | setQuality v => simp [opCreatedIds] at hj
  | setFormat f => simp [opCreatedIds] at hj
  | clearAllBtn => simp [opCreatedIds] at hj

theorem opCreatedIds_pairwise (op : Op) (st : AppState) :
    (opCreatedIds op st).Pairwise (· < ·) := by
  cases op with
  | add files =>
    rw [opCreatedIds, List.range'_eq_map_range]
    refine List.Pairwise.map (fun x => st.nextItemId + 1 + x)
      (fun a b h => ?_) (List.pairwise_lt_range _)
    simpa using h
  | convertOne id o => exact List.Pairwise.nil
  | convertAll outs => exact List.Pairwise.nil
  | setQuality v => exact List.Pairwise.nil
  | setFormat f => exact List.Pairwise.nil
  | clearAllBtn => exact List.Pairwise.nil

theorem createdIds_props (ops : List Op) :
    ∀ st : AppState, (∀ j ∈ st.items.map Item.id, j ≤ st.nextItemId) →
      (createdIds st ops).Pairwise (· < ·) ∧
      (∀ j ∈ createdIds st ops, st.nextItemId < j) ∧
      ((run st ops).items.map Item.id).Sublist
        (st.items.map Item.id ++ createdIds st ops) := by
  induction ops with
  | nil =>
    intro st h
    refine ⟨List.Pairwise.nil, by simp [createdIds], ?_⟩
    rw [run, createdIds, List.append_nil]
  | cons op rest ih =>
    intro st h
    have hbound2 : ∀ j ∈ (step op st).items.map Item.id,
        j ≤ (step op st).nextItemId := by
      intro j hj
      have hj2 := (step_ids_sublist op st).subset hj
      rcases List.mem_append.1 hj2 with hj2 | hj2
      · have h1 := h j hj2
        have h2 := step_nextItemId op st
        omega
      · exact (opCreatedIds_mem op st j hj2).2
    obtain ⟨ihp, ihgt, ihsub⟩ := ih (step op st) hbound2
    refine ⟨?_, ?_, ?_⟩
    · rw [createdIds]
      refine List.pairwise_append.2 ⟨opCreatedIds_pairwise op st, ihp, ?_⟩
      intro a ha b hb
      have h1 := (opCreatedIds_mem op st a ha).2
      have h2 := ihgt b hb
      omega
    · rw [createdIds]
      intro j hj
      rcases List.mem_append.1 hj with hj | hj
      · exact (opCreatedIds_mem op st j hj).1
      · have h1 := ihgt j hj
        have h2 := step_nextItemId op st
        omega
    · rw [createdIds, run]
      refine ihsub.trans ?_
      have hstep := (step_ids_sublist op st).append
        (List.Sublist.refl (createdIds (step op st) rest))
      rw [List.append_assoc] at hstep
      exact hstep

/-- C9: item identifiers come from a strictly increasing counter: over any
operation sequence from the initial state, the ids assigned at item creation
are strictly increasing in order of assignment (hence all distinct, even for
items created after a clear-all emptied the collection); the current
collection's ids are always an ordered sublist of the assigned ids; and no
operation ever invents or alters an id — after any step, the collection's id
list is a sublist of the previous id list followed by the ids that step
assigned at creation. -/
theorem item_ids_fresh_and_stable :
    (∀ ops : List Op,
      (createdIds initState ops).Pairwise (· < ·) ∧
      ((run initState ops).items.map Item.id).Sublist
        (createdIds initState ops)) ∧
    (∀ (op : Op) (st : AppState),
      ((step op st).items.map Item.id).Sublist
        (st.items.map Item.id ++ opCreatedIds op st)) := by
  constructor
  · intro ops
    obtain ⟨hp, _, hsub⟩ := createdIds_props ops initState
      (by simp [initState])
    refine ⟨hp, ?_⟩
    have heq : initState.items.map Item.id ++ createdIds initState ops =
        createdIds initState ops := by
      simp [initState]
    rw [heq] at hsub
    exact hsub
  · exact step_ids_sublist
